import Mathlib

/-
Verification development for the ratelimiter package (src/ratelimiter/_sync.py).

The RateLimiter class keeps a deque `calls` of past release timestamps and a
configuration (max_calls, period, callback, consume).  We embed timestamps and
the period as rationals, the counters as integers (Python ints), and the deque
as a Lean list (front = oldest).  The optional callback is modelled by a Bool
recording whether one is configured.  `__enter__` is embedded as a function
producing the trace of events it performs (lock acquisition, admission
computation, notifier dispatch, sleeping, lock release); `__exit__` as a state
transformer.  Errors are modelled by their Python kind (ValueError /
AttributeError).
-/

namespace Ratelimiter

/-- Kinds of Python exceptions raised by the ratelimiter code. -/
inductive PyError
  | valueError
  | attributeError
  deriving DecidableEq

/-- State and configuration of a RateLimiter instance, mirroring the fields set
in `RateLimiter.__init__`: `max_calls`, `period`, `callback` (presence of the
optional notifier), `consume` (the weight) and `calls` (the timestamp deque,
oldest first). -/
structure RateLimiter where
  max_calls : ℤ
  period : ℚ
  callback : Bool
  consume : ℤ
  calls : List ℚ
  deriving DecidableEq

/-- Embedding of the `_timespan` property:
`self.calls[-1] - self.calls[0] if self.calls else 0`. -/
def timespan : List ℚ → ℚ
  | [] => 0
  | c :: cs => cs.getLastD c - c

/-- Embedding of the trim loop in `__exit__`:
`while self._timespan >= self.period: self.calls.popleft()`.
For `period > 0` (guaranteed by the constructor) the Python loop stops exactly
when the list is empty or its span drops below the period, which is what this
structural recursion computes. -/
def trim (p : ℚ) : List ℚ → List ℚ
  | [] => []
  | c :: cs => if p ≤ timespan (c :: cs) then trim p cs else c :: cs

/-- Embedding of `RateLimiter.__init__(max_calls, period, callback, consume)`:
the three validation checks run before any field is assigned, so a failure
produces no limiter state at all. -/
def init (max_calls : ℤ) (period : ℚ) (callback : Bool) (consume : ℤ) :
    Except PyError RateLimiter :=
  if period ≤ 0 then .error .valueError
  else if max_calls ≤ 0 then .error .valueError
  else if consume < 1 then .error .valueError
  else .ok { max_calls := max_calls, period := period, callback := callback,
             consume := consume, calls := [] }

/-- The admission check of `__enter__`:
`len(self.calls) + self.consume > self.max_calls`. -/
def blockingBranch (rl : RateLimiter) : Bool :=
  decide (rl.max_calls < (rl.calls.length : ℤ) + rl.consume)

/-- The cycles computation of `__enter__`:
`math.ceil(self.consume / self.max_calls)` (true division, so the exact
rational ceiling). -/
def cycles (rl : RateLimiter) : ℤ :=
  ⌈(rl.consume : ℚ) / (rl.max_calls : ℚ)⌉

/-- The admission time computed in the blocking branch of `__enter__`:
`until = time.time() + cycles * self.period - self._timespan`, where `now1`
is that first `time.time()` reading. -/
def untilTime (rl : RateLimiter) (now1 : ℚ) : ℚ :=
  now1 + (cycles rl : ℚ) * rl.period - timespan rl.calls

/-- Observable events performed by `__enter__`, in order: taking the guard,
computing the admission time `until` in the blocking branch, dispatching the
notifier thread with it, sleeping, and releasing the guard. -/
inductive Event
  | lockAcquire
  | admission (u : ℚ)
  | notify (u : ℚ)
  | sleep (d : ℚ)
  | lockRelease
  deriving DecidableEq

/-- Embedding of `__enter__` as the ordered trace of its events.  `now1` is the
clock reading used to compute `until`, `now2` the (later) reading used to
compute `sleeptime = until - time.time()`.  The whole body runs inside
`with self._lock`, so the trace starts with the lock acquisition and ends with
its release; `__enter__` never mutates the limiter state. -/
def enterEvents (rl : RateLimiter) (now1 now2 : ℚ) : List Event :=
  [Event.lockAcquire] ++
    (if blockingBranch rl then
      [Event.admission (untilTime rl now1)] ++
        (if rl.callback then [Event.notify (untilTime rl now1)] else []) ++
        (if 0 < untilTime rl now1 - now2 then
          [Event.sleep (untilTime rl now1 - now2)]
        else [])
    else []) ++
    [Event.lockRelease]

/-- Embedding of `__exit__(exc_type, exc_val, exc_tb)`: append `consume` copies
of the current timestamp (a single `time.time()` read, copied), then trim.  The
exception arguments are ignored by the code, so the state update does not
depend on `ex`. -/
def exitStep (rl : RateLimiter) (now : ℚ) (_ex : Option PyError) : RateLimiter :=
  { rl with calls := trim rl.period (rl.calls ++ List.replicate rl.consume.toNat now) }

/-- Embedding of the `consume` property setter: accepts `value >= 1` and stores
it, otherwise raises ValueError and leaves the state untouched. -/
def setConsume (rl : RateLimiter) (value : ℤ) : Except PyError Unit × RateLimiter :=
  if 1 ≤ value then (.ok (), { rl with consume := value })
  else (.error .valueError, rl)

/-- Embedding of the `consume` property deleter: always raises AttributeError. -/
def delConsume (_rl : RateLimiter) : Except PyError Unit :=
  .error .attributeError

/-- Embedding of the `consume` property getter: returns the stored value. -/
def getConsume (rl : RateLimiter) : ℤ :=
  rl.consume

/-- Embedding of one invocation of the decorator produced by `__call__`:
`with self: return f(*args, **kwargs)`.  The body result (normal value or
exception) is given as `body`; `__enter__` mutates no state, and the
with-statement runs `__exit__` on every exit path.  Since `__exit__` returns
None (falsy), a body exception propagates unchanged after release ran. -/
def pyWith (rl : RateLimiter) (nowExit : ℚ) (body : Except PyError β) :
    Except PyError β × RateLimiter :=
  match body with
  | .ok v => (.ok v, exitStep rl nowExit none)
  | .error e => (.error e, exitStep rl nowExit (some e))

/-- Recognizer for the lock-acquisition event. -/
def isLockAcquire : Event → Bool
  | Event.lockAcquire => true
  | _ => false

/-- Recognizer for the lock-release event. -/
def isLockRelease : Event → Bool
  | Event.lockRelease => true
  | _ => false

/-- The part of a trace performed while the guard is held: everything strictly
between the lock acquisition and the lock release. -/
def heldRegion (tr : List Event) : List Event :=
  ((tr.dropWhile (fun e => ! isLockAcquire e)).drop 1).takeWhile
    (fun e => ! isLockRelease e)

/-! ### Basic facts about `timespan` and `trim` -/

/-- A one-element log has span zero. -/
theorem timespan_singleton (c : ℚ) : timespan [c] = 0 := by
  simp [timespan]

/-- The last element of a nonempty list, as computed through `getLastD`. -/
theorem getLast?_cons_eq_getLastD (c : ℚ) (cs : List ℚ) :
    (c :: cs).getLast? = some (cs.getLastD c) := by
  induction cs generalizing c with
  | nil => rfl
  | cons c2 cs2 ih => rw [List.getLast?_cons_cons, ih, List.getLastD_cons]

/-- The `_timespan` property equals the spec's window span: newest timestamp
minus oldest timestamp, `0` for an empty log. -/
theorem timespan_eq (l : List ℚ) :
    timespan l = l.getLast?.getD 0 - l.head?.getD 0 := by
  cases l with
  | nil => simp [timespan]
  | cons c cs =>
    rw [getLast?_cons_eq_getLastD, List.head?_cons]
    simp [timespan]

/-- The trim loop is a no-op as soon as the span is below the period. -/
theorem trim_of_lt (p : ℚ) (l : List ℚ) (h : timespan l < p) : trim p l = l := by
  cases l with
  | nil => rfl
  | cons c cs =>
    rw [trim, if_neg (not_le.mpr h)]

/-- One iteration of the trim loop removes the oldest entry. -/
theorem trim_of_ge (p c : ℚ) (cs : List ℚ) (h : p ≤ timespan (c :: cs)) :
    trim p (c :: cs) = trim p cs := by
  rw [trim, if_pos h]

/-- If a cons cell still triggers the loop under a positive period then its
tail is nonempty. -/
theorem tail_ne_nil_of_trim_cond (p c : ℚ) (cs : List ℚ) (hp : 0 < p)
    (h : p ≤ timespan (c :: cs)) : cs ≠ [] := by
  intro hnil
  subst hnil
  rw [timespan_singleton] at h
  linarith

/-- After trimming with a positive period, the span is strictly below the
period. -/
theorem timespan_trim_lt (p : ℚ) (hp : 0 < p) (l : List ℚ) :
    timespan (trim p l) < p := by
  induction l with
  | nil => simpa [trim, timespan] using hp
  | cons c cs ih =>
    by_cases h : p ≤ timespan (c :: cs)
    · rw [trim_of_ge p c cs h]
      exact ih
    · rw [trim_of_lt p (c :: cs) (not_le.mp h)]
      exact not_le.mp h

/-- Trimming only removes a front segment: the result is a suffix. -/
theorem trim_suffix (p : ℚ) (l : List ℚ) : trim p l <:+ l := by
  induction l with
  | nil => exact List.suffix_refl []
  | cons c cs ih =>
    by_cases h : p ≤ timespan (c :: cs)
    · rw [trim_of_ge p c cs h]
      exact ih.trans (List.suffix_cons c cs)
    · rw [trim_of_lt p (c :: cs) (not_le.mp h)]

/-- Trimming with a positive period keeps the newest entry. -/
theorem getLast?_trim (p : ℚ) (hp : 0 < p) (l : List ℚ) :
    (trim p l).getLast? = l.getLast? := by
  induction l with
  | nil => rfl
  | cons c cs ih =>
    by_cases h : p ≤ timespan (c :: cs)
    · rw [trim_of_ge p c cs h, ih]
      rcases cs with _ | ⟨c2, cs2⟩
      · exact absurd rfl (tail_ne_nil_of_trim_cond p c [] hp h)
      · rw [List.getLast?_cons_cons]
    · rw [trim_of_lt p (c :: cs) (not_le.mp h)]

/-- Entries within the period of the newest entry survive the trim loop. -/
theorem mem_trim_of_fresh (p : ℚ) (hp : 0 < p) (l : List ℚ) :
    ∀ t ∈ l, l.getLast?.getD 0 - t < p → t ∈ trim p l := by
  induction l with
  | nil => intro t ht; cases ht
  | cons c cs ih =>
    intro t ht hfresh
    by_cases h : p ≤ timespan (c :: cs)
    · have hcs : cs ≠ [] := tail_ne_nil_of_trim_cond p c cs hp h
      have hlast : (c :: cs).getLast? = cs.getLast? := by
        rcases cs with _ | ⟨c2, cs2⟩
        · exact absurd rfl hcs
        · exact List.getLast?_cons_cons
      rw [trim_of_ge p c cs h]
      rcases List.mem_cons.mp ht with rfl | ht'
      · exfalso
        have hspan : timespan (t :: cs) = (t :: cs).getLast?.getD 0 - t := by
          rw [timespan_eq, List.head?_cons]
          simp
        rw [hspan] at h
        linarith
      · exact ih t ht' (by rwa [← hlast])
    · rw [trim_of_lt p (c :: cs) (not_le.mp h)]
      exact ht

/-- In a sorted log, every entry is within the span of the newest entry. -/
theorem getLast_sub_le_timespan (l : List ℚ) (hs : List.Sorted (· ≤ ·) l) :
    ∀ t ∈ l, l.getLast?.getD 0 - t ≤ timespan l := by
  intro t ht
  rcases l with _ | ⟨c, cs⟩
  · cases ht
  · have hc : c ≤ t := by
      rcases List.mem_cons.mp ht with rfl | ht'
      · exact le_refl t
      · exact (List.sorted_cons.mp hs).1 t ht'
    rw [timespan_eq, List.head?_cons]
    simp only [Option.getD_some]
    linarith

/-- Trimming preserves sortedness. -/
theorem sorted_trim (p : ℚ) (l : List ℚ) (hs : List.Sorted (· ≤ ·) l) :
    List.Sorted (· ≤ ·) (trim p l) :=
  List.Pairwise.sublist (trim_suffix p l).sublist hs

/-- The last default of a replicated block is the replicated value. -/
theorem getLastD_replicate (a : ℚ) (n : ℕ) :
    (List.replicate n a).getLastD a = a := by
  induction n with
  | zero => rfl
  | succ n ih => rw [List.replicate_succ, List.getLastD_cons, ih]

/-- A replicated block has span zero. -/
theorem timespan_replicate (n : ℕ) (t : ℚ) : timespan (List.replicate n t) = 0 := by
  cases n with
  | zero => rfl
  | succ n =>
    rw [List.replicate_succ, timespan, getLastD_replicate]
    exact sub_self t

/-- After appending a nonempty block of copies of `now`, the newest entry is
`now`. -/
theorem getLast?_append_replicate (l : List ℚ) (now : ℚ) (w : ℕ) (hw : w ≠ 0) :
    (l ++ List.replicate w now).getLast? = some now := by
  rcases w with _ | n
  · exact absurd rfl hw
  · rw [List.getLast?_append, List.replicate_succ, getLast?_cons_eq_getLastD,
      getLastD_replicate]
    rfl

/-- The freshly appended block of copies of `now` survives the trim loop
whole. -/
theorem replicate_suffix_trim (p : ℚ) (hp : 0 < p) (w : ℕ) (now : ℚ)
    (l : List ℚ) :
    List.replicate w now <:+ trim p (l ++ List.replicate w now) := by
  induction l with
  | nil =>
    rw [List.nil_append, trim_of_lt p _ (by rw [timespan_replicate]; exact hp)]
  | cons c cs ih =>
    rw [List.cons_append]
    by_cases h : p ≤ timespan (c :: (cs ++ List.replicate w now))
    · rw [trim_of_ge p c _ h]
      exact ih
    · rw [trim_of_lt p _ (not_le.mp h)]
      simpa using List.suffix_append (c :: cs) (List.replicate w now)

/-! ### Concrete limiter instances used by witnesses and counterexamples -/

/-- A small valid limiter: capacity 2, period 3, no callback, weight 1, two
logged entries. -/
def rlA : RateLimiter :=
  { max_calls := 2, period := 3, callback := false, consume := 1, calls := [0, 1] }

/-- A limiter whose next acquire takes the blocking branch with a positive
sleep: capacity 1, period 1, no callback, weight 1, one logged entry. -/
def rlB : RateLimiter :=
  { max_calls := 1, period := 1, callback := false, consume := 1, calls := [5] }

/-- A limiter whose weight exceeds its capacity (weight 15, capacity 10),
with an empty log. -/
def rlC : RateLimiter :=
  { max_calls := 10, period := 1, callback := false, consume := 15, calls := [] }

/-- A limiter with room left in its window: capacity 3, one logged entry,
weight 1. -/
def rlD : RateLimiter :=
  { max_calls := 3, period := 3, callback := false, consume := 1, calls := [0] }

/-! ### Shape of the `__enter__` trace -/

/-- Everything `__enter__` does between taking and releasing the guard. -/
theorem heldRegion_enterEvents (rl : RateLimiter) (now1 now2 : ℚ) :
    heldRegion (enterEvents rl now1 now2) =
      (if blockingBranch rl then
        [Event.admission (untilTime rl now1)] ++
          (if rl.callback then [Event.notify (untilTime rl now1)] else []) ++
          (if 0 < untilTime rl now1 - now2 then
            [Event.sleep (untilTime rl now1 - now2)]
          else [])
      else []) := by
  by_cases hb : blockingBranch rl <;> by_cases hc : rl.callback <;>
    by_cases hs : 0 < untilTime rl now1 - now2 <;>
      simp [enterEvents, heldRegion, hb, hc, hs, isLockAcquire, isLockRelease,
        List.dropWhile, List.takeWhile]

/-! ### Claims -/

/-- C1: the blocking branch of `__enter__` (computing the admission time and
possibly sleeping) is taken if and only if `len(log) + weight > capacity`;
when `len(log) + weight <= capacity` the trace is just taking and releasing
the guard, with no wait. -/
theorem enter_blocking_branch_iff (rl : RateLimiter) (now1 now2 : ℚ) :
    ((∃ u, Event.admission u ∈ enterEvents rl now1 now2) ↔
      rl.max_calls < (rl.calls.length : ℤ) + rl.consume)
    ∧ ((rl.calls.length : ℤ) + rl.consume ≤ rl.max_calls →
      enterEvents rl now1 now2 = [Event.lockAcquire, Event.lockRelease]) := by
  constructor
  · constructor
    · rintro ⟨u, hu⟩
      by_contra hnot
      simp [enterEvents, blockingBranch, hnot] at hu
    · intro h
      refine ⟨untilTime rl now1, ?_⟩
      simp [enterEvents, blockingBranch, h]
  · intro h
    have hnot : ¬ rl.max_calls < (rl.calls.length : ℤ) + rl.consume := not_lt.mpr h
    simp [enterEvents, blockingBranch, hnot]

/-- C1 witness: on a limiter with room left, acquire returns immediately. -/
theorem enter_blocking_branch_iff_witness :
    enterEvents rlD 0 0 = [Event.lockAcquire, Event.lockRelease] :=
  (enter_blocking_branch_iff rlD 0 0).2 (by decide)

/-- C2: `__exit__` appends exactly `weight` copies of the current timestamp to
the tail of the log, then runs the trim loop, which removes the oldest entry
while the log is nonempty and its span is at least the period and stops as
soon as the span is below the period; nothing else of the limiter state is
mutated. -/
theorem exit_appends_then_trims (rl : RateLimiter) (now : ℚ) (ex : Option PyError) :
    (exitStep rl now ex).calls =
      trim rl.period (rl.calls ++ List.replicate rl.consume.toNat now)
    ∧ (exitStep rl now ex).max_calls = rl.max_calls
    ∧ (exitStep rl now ex).period = rl.period
    ∧ (exitStep rl now ex).callback = rl.callback
    ∧ (exitStep rl now ex).consume = rl.consume
    ∧ (∀ l : List ℚ, l ≠ [] → rl.period ≤ timespan l →
        trim rl.period l = trim rl.period l.tail)
    ∧ (∀ l : List ℚ, timespan l < rl.period → trim rl.period l = l)
    ∧ trim rl.period [] = [] := by
  refine ⟨rfl, rfl, rfl, rfl, rfl, ?_, ?_, rfl⟩
  · intro l hne hge
    rcases l with _ | ⟨c, cs⟩
    · exact absurd rfl hne
    · rw [trim_of_ge rl.period c cs hge, List.tail_cons]
  · exact fun l h => trim_of_lt rl.period l h

/-- C2 witness: a release on a concrete limiter, plus one step of the trim
loop on a log whose span reaches the period. -/
theorem exit_appends_then_trims_witness :
    (exitStep rlA 1 none).calls =
      trim rlA.period (rlA.calls ++ List.replicate rlA.consume.toNat 1)
    ∧ trim rlA.period [0, 5] = trim rlA.period ([0, 5] : List ℚ).tail :=
  ⟨(exit_appends_then_trims rlA 1 none).1,
    (exit_appends_then_trims rlA 1 none).2.2.2.2.2.1 [0, 5] (by simp)
      (by norm_num [timespan, rlA])⟩

/-- C3: in the blocking branch, the computed admission time is
`now + cycles * period - window_span` with `cycles = ceil(weight / capacity)`
and `window_span` the newest minus the oldest logged timestamp (0 when the log
is empty); with weight 15 and capacity 10 the cycles value is 2; and a sleep
event occurs exactly when the resulting sleep duration is positive. -/
theorem enter_admission_time (rl : RateLimiter) (now1 now2 : ℚ)
    (hb : rl.max_calls < (rl.calls.length : ℤ) + rl.consume) :
    Event.admission (now1 + (⌈(rl.consume : ℚ) / (rl.max_calls : ℚ)⌉ : ℚ) * rl.period
        - (rl.calls.getLast?.getD 0 - rl.calls.head?.getD 0)) ∈
      enterEvents rl now1 now2
    ∧ (rl.consume = 15 → rl.max_calls = 10 → cycles rl = 2)
    ∧ (∀ d, Event.sleep d ∈ enterEvents rl now1 now2 ↔
        0 < untilTime rl now1 - now2 ∧ d = untilTime rl now1 - now2) := by
  have hval : now1 + (⌈(rl.consume : ℚ) / (rl.max_calls : ℚ)⌉ : ℚ) * rl.period
      - (rl.calls.getLast?.getD 0 - rl.calls.head?.getD 0) = untilTime rl now1 := by
    rw [untilTime, cycles, timespan_eq]
  refine ⟨?_, ?_, ?_⟩
  · rw [hval]
    simp [enterEvents, blockingBranch, hb]
  · intro h15 h10
    rw [cycles, h15, h10]
    rw [show ((15 : ℤ) : ℚ) / ((10 : ℤ) : ℚ) = (15 : ℚ) / 10 by norm_num]
    rw [Int.ceil_eq_iff]
    norm_num
  · intro d
    by_cases hs : 0 < untilTime rl now1 - now2 <;>
      by_cases hc : rl.callback <;>
        simp [enterEvents, blockingBranch, hb, hc, hs, eq_comm]

/-- C3 witness: weight 15 over capacity 10 on an empty log gives cycles 2 and
an admission time of `now + 2 * period`. -/
theorem enter_admission_time_witness :
    Event.admission ((0 : ℚ) + (⌈(rlC.consume : ℚ) / (rlC.max_calls : ℚ)⌉ : ℚ) * rlC.period
        - (rlC.calls.getLast?.getD 0 - rlC.calls.head?.getD 0)) ∈
      enterEvents rlC 0 0
    ∧ cycles rlC = 2 :=
  ⟨(enter_admission_time rlC 0 0 (by decide)).1,
    (enter_admission_time rlC 0 0 (by decide)).2.1 rfl rfl⟩

/-- C4 counterexample: the claim that the guard is released before sleeping is
false on the code.  On a concrete blocked limiter, the sleep event lies inside
the region between the lock acquisition and the lock release, because the
whole body of `__enter__`, `time.sleep` included, runs under
`with self._lock`. -/
theorem enter_sleep_not_in_guard_cex :
    ¬ (∀ d : ℚ, Event.sleep d ∈ enterEvents rlB 0 0 →
        Event.sleep d ∉ heldRegion (enterEvents rlB 0 0)) := by
  intro hclaim
  have hb : blockingBranch rlB = true := by decide
  have hcb : rlB.callback = false := rfl
  have hpos : 0 < untilTime rlB 0 := by
    norm_num [untilTime, cycles, timespan, rlB]
  have hmem : Event.sleep (untilTime rlB 0) ∈ enterEvents rlB 0 0 := by
    simp [enterEvents, hb, hcb, hpos]
  have hheld : Event.sleep (untilTime rlB 0) ∈ heldRegion (enterEvents rlB 0 0) := by
    rw [heldRegion_enterEvents]
    simp [hb, hcb, hpos]
  exact hclaim _ hmem hheld

/-- C4 (amended): during the wait for the admission time the guard IS held —
every sleep performed by `__enter__` occurs between the lock acquisition and
the lock release, so no other caller can reach the admission check while one
caller waits. -/
theorem enter_sleep_inside_guard (rl : RateLimiter) (now1 now2 d : ℚ)
    (h : Event.sleep d ∈ enterEvents rl now1 now2) :
    Event.sleep d ∈ heldRegion (enterEvents rl now1 now2) := by
  rw [heldRegion_enterEvents]
  by_cases hb : blockingBranch rl <;> by_cases hc : rl.callback <;>
    by_cases hs : 0 < untilTime rl now1 - now2 <;>
      simp [enterEvents, hb, hc, hs] at h ⊢ <;> try exact h

/-- C4 witness: the concrete sleeping acquire, shown inside the guard. -/
theorem enter_sleep_inside_guard_witness :
    Event.sleep (untilTime rlB 0) ∈ heldRegion (enterEvents rlB 0 0) :=
  enter_sleep_inside_guard rlB 0 0 _ (by
    have hb : blockingBranch rlB = true := by decide
    have hcb : rlB.callback = false := rfl
    have hpos : 0 < untilTime rlB 0 := by
      norm_num [untilTime, cycles, timespan, rlB]
    simp [enterEvents, hb, hcb, hpos])

/-- C5: after a completed release the span between oldest and newest retained
entries is strictly below the period; the trim loop leaves no entry at
distance at least the period from the newest entry (`now`), and removes no
entry at distance below the period from it. -/
theorem release_window_invariant (rl : RateLimiter) (now : ℚ) (ex : Option PyError)
    (hp : 0 < rl.period) (hw : 1 ≤ rl.consume)
    (hsorted : List.Sorted (· ≤ ·) rl.calls) (hle : ∀ t ∈ rl.calls, t ≤ now) :
    timespan (exitStep rl now ex).calls < rl.period
    ∧ (∀ t ∈ (exitStep rl now ex).calls, now - t < rl.period)
    ∧ (∀ t ∈ rl.calls ++ List.replicate rl.consume.toNat now,
        now - t < rl.period → t ∈ (exitStep rl now ex).calls) := by
  have hw0 : rl.consume.toNat ≠ 0 := by omega
  have hlast : (rl.calls ++ List.replicate rl.consume.toNat now).getLast? = some now :=
    getLast?_append_replicate _ _ _ hw0
  have hcalls : (exitStep rl now ex).calls =
      trim rl.period (rl.calls ++ List.replicate rl.consume.toNat now) := rfl
  have hsortedL : List.Sorted (· ≤ ·) (rl.calls ++ List.replicate rl.consume.toNat now) := by
    refine List.pairwise_append.mpr ⟨hsorted, ?_, ?_⟩
    · exact List.pairwise_replicate.mpr (Or.inr le_rfl)
    · intro a ha b hb
      rcases List.mem_replicate.mp hb with ⟨-, rfl⟩
      exact hle a ha
  refine ⟨?_, ?_, ?_⟩
  · rw [hcalls]
    exact timespan_trim_lt rl.period hp _
  · intro t ht
    rw [hcalls] at ht
    have hsl := sorted_trim rl.period _ hsortedL
    have hb := getLast_sub_le_timespan _ hsl t ht
    have hlast' : (trim rl.period (rl.calls ++ List.replicate rl.consume.toNat now)).getLast?
        = some now := by
      rw [getLast?_trim rl.period hp _, hlast]
    rw [hlast'] at hb
    simp only [Option.getD_some] at hb
    have := timespan_trim_lt rl.period hp (rl.calls ++ List.replicate rl.consume.toNat now)
    linarith
  · intro t ht hfresh
    rw [hcalls]
    apply mem_trim_of_fresh rl.period hp _ t ht
    rw [hlast]
    simpa using hfresh

/-- C5 witness: a concrete release leaves a window span below the period. -/
theorem release_window_invariant_witness :
    timespan (exitStep rlA 2 none).calls < rlA.period :=
  (release_window_invariant rlA 2 none (by decide) (by decide) (by decide)
    (by decide)).1

/-- C6: construction raises ValueError if and only if `period <= 0`,
`capacity <= 0` or `weight < 1` (all three the same error kind), and otherwise
returns the fully initialized limiter with an empty log — on failure no
limiter state is produced at all. -/
theorem init_validates (max_calls : ℤ) (period : ℚ) (callback : Bool) (consume : ℤ) :
    (period ≤ 0 ∨ max_calls ≤ 0 ∨ consume < 1 →
      init max_calls period callback consume = .error .valueError)
    ∧ (0 < period → 0 < max_calls → 1 ≤ consume →
      init max_calls period callback consume =
        .ok { max_calls := max_calls, period := period, callback := callback, consume := consume, calls := [] }) := by
  constructor
  · intro h
    unfold init
    split_ifs with h1 h2 h3
    · rfl
    · rfl
    · rfl
    · exfalso
      rcases h with h | h | h
      · exact h1 h
      · exact h2 h
      · exact h3 h
  · intro h1 h2 h3
    unfold init
    rw [if_neg (not_le.mpr h1), if_neg (not_le.mpr h2), if_neg (not_lt.mpr h3)]

/-- C6 witness: a zero period is rejected with ValueError; a valid
configuration constructs the limiter. -/
theorem init_validates_witness :
    init 1 0 false 1 = .error .valueError
    ∧ init 2 1 false 1 = .ok { max_calls := 2, period := 1, callback := false, consume := 1, calls := [] } :=
  ⟨(init_validates 1 0 false 1).1 (Or.inl le_rfl),
    (init_validates 2 1 false 1).2 (by decide) (by decide) (by decide)⟩

/-- C7: one invocation of the decorated callable is acquire-call-release: the
wrapped callable's return value comes back unchanged, its exception propagates
unchanged, and on both exit paths the release has executed — the log is the
appended-and-trimmed one — before control returns to the caller. -/
theorem decorator_propagates {β : Type} (rl : RateLimiter) (body : Except PyError β)
    (nowExit : ℚ) :
    (pyWith rl nowExit body).1 = body
    ∧ (pyWith rl nowExit body).2.calls =
        trim rl.period (rl.calls ++ List.replicate rl.consume.toNat nowExit)
    ∧ (∀ v, body = .ok v → (pyWith rl nowExit body).1 = .ok v)
    ∧ (∀ e, body = .error e →
        (pyWith rl nowExit body).1 = .error e
        ∧ (pyWith rl nowExit body).2 = exitStep rl nowExit (some e)) := by
  cases body <;> simp [pyWith, exitStep]

/-- C7 witness: a raising body still yields the same exception after release
ran. -/
theorem decorator_propagates_witness :
    (pyWith rlA 1 (Except.error PyError.valueError : Except PyError Unit)).1 =
      Except.error PyError.valueError :=
  ((decorator_propagates rlA (Except.error PyError.valueError) 1).2.2.2
    PyError.valueError rfl).1

/-- C8: the consume (weight) property: a value at least 1 is stored for later
acquires/releases without touching the logged entries; a smaller value raises
ValueError and leaves the stored weight unchanged; deletion always raises
AttributeError; the getter returns the most recently accepted value. -/
theorem consume_property (rl : RateLimiter) (value : ℤ) :
    (1 ≤ value →
      (setConsume rl value).1 = .ok ()
      ∧ (setConsume rl value).2 = { rl with consume := value }
      ∧ getConsume (setConsume rl value).2 = value
      ∧ (setConsume rl value).2.calls = rl.calls)
    ∧ (value < 1 →
      (setConsume rl value).1 = .error .valueError
      ∧ (setConsume rl value).2 = rl
      ∧ getConsume (setConsume rl value).2 = getConsume rl)
    ∧ delConsume rl = .error .attributeError := by
  refine ⟨?_, ?_, rfl⟩
  · intro h
    simp [setConsume, getConsume, h]
  · intro h
    have hn : ¬ 1 ≤ value := not_le.mpr h
    simp [setConsume, getConsume, hn]

/-- C8 witness: setting weight 3 stores 3; setting weight 0 leaves the limiter
unchanged. -/
theorem consume_property_witness :
    getConsume (setConsume rlA 3).2 = 3 ∧ (setConsume rlA 0).2 = rlA :=
  ⟨((consume_property rlA 3).1 (by decide)).2.2.1,
    ((consume_property rlA 0).2.1 (by decide)).2.1⟩

/-- C9: window aging is measured only between log entries, never against the
current clock: one release of weight `capacity` on an empty log at time `t`
yields `capacity` copies of `t`; an acquire at ANY later `now` still takes the
blocking branch, sees window span 0, and computes the admission time
`now + ceil(weight/capacity) * period`, a full cycle ahead of `now`. -/
theorem stale_log_still_blocks (cap w : ℤ) (p t now : ℚ) (cb : Bool)
    (hcap : 1 ≤ cap) (hw : 1 ≤ w) (hp : 0 < p) :
    (exitStep ⟨cap, p, cb, cap, []⟩ t none).calls = List.replicate cap.toNat t
    ∧ blockingBranch ⟨cap, p, cb, w, List.replicate cap.toNat t⟩ = true
    ∧ timespan (List.replicate cap.toNat t) = 0
    ∧ Event.admission (now + (⌈(w : ℚ) / (cap : ℚ)⌉ : ℚ) * p) ∈
        enterEvents ⟨cap, p, cb, w, List.replicate cap.toNat t⟩ now now := by
  have hts : timespan (List.replicate cap.toNat t) = 0 := timespan_replicate _ _
  have hlen : ((List.replicate cap.toNat t).length : ℤ) = cap := by
    rw [List.length_replicate]
    omega
  have hb : blockingBranch ⟨cap, p, cb, w, List.replicate cap.toNat t⟩ = true := by
    have hlt : cap < ((List.replicate cap.toNat t).length : ℤ) + w := by
      rw [hlen]
      omega
    exact decide_eq_true hlt
  refine ⟨?_, hb, hts, ?_⟩
  · show trim p ([] ++ List.replicate cap.toNat t) = List.replicate cap.toNat t
    rw [List.nil_append]
    exact trim_of_lt p _ (by rw [hts]; exact hp)
  · have huntil : untilTime ⟨cap, p, cb, w, List.replicate cap.toNat t⟩ now
        = now + (⌈(w : ℚ) / (cap : ℚ)⌉ : ℚ) * p := by
      show now + (⌈(w : ℚ) / (cap : ℚ)⌉ : ℚ) * p - timespan (List.replicate cap.toNat t)
          = now + (⌈(w : ℚ) / (cap : ℚ)⌉ : ℚ) * p
      rw [hts, sub_zero]
    have hmem : Event.admission (untilTime ⟨cap, p, cb, w, List.replicate cap.toNat t⟩ now) ∈
        enterEvents ⟨cap, p, cb, w, List.replicate cap.toNat t⟩ now now := by
      simp [enterEvents, hb]
    rwa [huntil] at hmem

/-- C9 witness: capacity 2 filled at time 0, acquire at time 100. -/
theorem stale_log_still_blocks_witness :
    blockingBranch ⟨2, 1, false, 1, List.replicate (2 : ℤ).toNat 0⟩ = true
    ∧ Event.admission ((100 : ℚ) + (⌈((1 : ℤ) : ℚ) / ((2 : ℤ) : ℚ)⌉ : ℚ) * 1) ∈
        enterEvents ⟨2, 1, false, 1, List.replicate (2 : ℤ).toNat 0⟩ 100 100 :=
  ⟨(stale_log_still_blocks 2 1 1 0 100 false (by decide) (by decide) (by decide)).2.1,
    (stale_log_still_blocks 2 1 1 0 100 false (by decide) (by decide) (by decide)).2.2.2⟩

/-- C10: with a positive period the trim loop never removes any of the `weight`
entries just appended by the release — they survive as a suffix — so after
every release the log holds at least `weight` entries and is never empty. -/
theorem release_keeps_new_entries (rl : RateLimiter) (now : ℚ) (ex : Option PyError)
    (hp : 0 < rl.period) (hw : 1 ≤ rl.consume) :
    List.replicate rl.consume.toNat now <:+ (exitStep rl now ex).calls
    ∧ rl.consume.toNat ≤ (exitStep rl now ex).calls.length
    ∧ (exitStep rl now ex).calls ≠ [] := by
  have hsuf : List.replicate rl.consume.toNat now <:+ (exitStep rl now ex).calls :=
    replicate_suffix_trim rl.period hp rl.consume.toNat now rl.calls
  have hlen : rl.consume.toNat ≤ (exitStep rl now ex).calls.length := by
    have h := hsuf.sublist.length_le
    rwa [List.length_replicate] at h
  refine ⟨hsuf, hlen, ?_⟩
  intro hnil
  rw [hnil, List.length_nil] at hlen
  omega

/-- C10 witness: a concrete release leaves a nonempty log. -/
theorem release_keeps_new_entries_witness :
    (exitStep rlA 5 none).calls ≠ [] :=
  (release_keeps_new_entries rlA 5 none (by decide) (by decide)).2.2

end Ratelimiter
